import Mathlib

/-!
Verification development for the vscode-ssh extension sources
(`src/extension.ts` and the two earlier revisions of the same module).

The TypeScript is shallowly embedded: promise-based code becomes explicit
result passing (`Except`/`Option`), external platform functions
(`path.relative`, `path.join`, the lstat/read callbacks) become function
parameters, and the JavaScript regular expressions used by the code are
modelled character by character.
-/

namespace VscodeSsh

/-- Character class of the JavaScript regex `\s`
(ECMA-262 WhiteSpace ∪ LineTerminator), used by `^Host\s+([^\s]+)` and
`^\s*[^\s]*$` in `extension.ts`. -/
def isJsSpace (c : Char) : Bool :=
  c = ' ' || c = '\t' || c = '\n' || c.toNat = 11 || c.toNat = 12 || c = '\r' ||
  c.toNat = 0xa0 || c.toNat = 0x1680 || (0x2000 ≤ c.toNat && c.toNat ≤ 0x200a) ||
  c.toNat = 0x2028 || c.toNat = 0x2029 || c.toNat = 0x202f || c.toNat = 0x205f ||
  c.toNat = 0x3000 || c.toNat = 0xfeff

/-- ECMA-262 LineTerminator characters: the positions after which the
multiline anchor `^` of a `/.../gm` regex matches. -/
def isLineTerm (c : Char) : Bool :=
  c = '\n' || c = '\r' || c.toNat = 0x2028 || c.toNat = 0x2029

/-- A host entry as built by `loadHosts` in `extension.ts`. -/
structure Host where
  label : String
  description : String
  configFile : String
deriving DecidableEq

/-- One attempt of the regex `^Host\s+([^\s]+)` at an anchored position:
the input is the text suffix starting at a line start.  Returns the
captured group together with the suffix that follows the match
(the regex engine continues from `lastIndex`, i.e. after the token).
Note that `\s+` is greedy and `\s` includes line terminators, so the
whitespace run may cross line boundaries. -/
def tryMatchAt (l : List Char) : Option (String × List Char) :=
  match l with
  | c1 :: c2 :: c3 :: c4 :: c :: cs =>
    if c1 = 'H' ∧ c2 = 'o' ∧ c3 = 's' ∧ c4 = 't' ∧ isJsSpace c = true then
      if ((cs.dropWhile isJsSpace).takeWhile fun d => !isJsSpace d).isEmpty then none
      else
        some (⟨(cs.dropWhile isJsSpace).takeWhile fun d => !isJsSpace d⟩,
          (cs.dropWhile isJsSpace).dropWhile fun d => !isJsSpace d)
    else none
  | _ => none

/-- The `while (host = (r.exec(text) || [])[1])` loop of `loadHosts`:
walk the text left to right, keeping track of whether the current
position is a valid `^` anchor (position 0 or just after a line
terminator); at an anchor, try the pattern, and on success resume after
the match.  `fuel` bounds the recursion by the text length; every step
consumes at least one character, so `fuel = length` is exact. -/
def scanHostsGo : Nat → List Char → Bool → List String
  | 0, _, _ => []
  | fuel + 1, l, anchor =>
    match l with
    | [] => []
    | c :: cs =>
      if anchor then
        match tryMatchAt (c :: cs) with
        | some (tok, rest) => tok :: scanHostsGo fuel rest false
        | none => scanHostsGo fuel cs (isLineTerm c)
      else scanHostsGo fuel cs (isLineTerm c)

/-- All captures of `/^Host\s+([^\s]+)/gm` over the whole text, in order
of appearance (position 0 is a line start, so the scan starts anchored). -/
def scanHosts (text : String) : List String :=
  scanHostsGo text.data.length text.data true

/-- The body of `loadHosts` once the document text is available: one
`Host` record per regex capture, labelled with the capture and carrying
the (pre-computed) shortened description and the config file path. -/
def parseHosts (text : String) (desc : String) (configFile : String) : List Host :=
  (scanHosts text).map fun tok => { label := tok, description := desc, configFile := configFile }

/-- Modelled from the spec claim (C2): the strictly line-local reading of
the parser — `Host` at the start of a line, whitespace, and a token all on
that same line.  Used only to compare against the code's `scanHosts`. -/
def lineHostToken (line : List Char) : Option String :=
  match line with
  | 'H' :: 'o' :: 's' :: 't' :: c :: cs =>
    if isJsSpace c then
      if ((cs.dropWhile isJsSpace).takeWhile fun d => !isJsSpace d).isEmpty then none
      else some ⟨(cs.dropWhile isJsSpace).takeWhile fun d => !isJsSpace d⟩
    else none
  | _ => none

/-- Split a character list at every line terminator (the line structure
that a strictly line-by-line reading of the config file would use). -/
def splitLines : List Char → List (List Char)
  | [] => [[]]
  | c :: cs =>
    if isLineTerm c then [] :: splitLines cs
    else
      match splitLines cs with
      | l :: ls => (c :: l) :: ls
      | [] => [[c]]

/-- Modelled from the spec claim (C2): one entry per line matching
`Host <token>`, in line order. -/
def specLineHosts (text : String) : List String :=
  (splitLines text.data).filterMap lineHostToken

/-- The seedless `options.reduce((min, path) => min.length <= path.length ? min : path)`
shared by `relativize` (extension.ts) and `shortPath` (latest revision):
the first array element is the initial accumulator. -/
def reduceMin (first : String) (rest : List String) : String :=
  rest.foldl (fun m p => if m.length ≤ p.length then m else p) first

/-- Candidate list built by `relativize` in `extension.ts`: the path
itself, then `'~/' + relative(HOME, path)` when `HOME` is set, then
`relative(rootPath, path)` when a workspace is open.  `rel` is the
external `path.relative`. -/
def relativizeCands (rel : String → String → String) (home rootPath : Option String)
    (path : String) : List String :=
  path :: ((home.map fun h => "~/" ++ rel h path).toList ++
    (rootPath.map fun rp => rel rp path).toList)

/-- Function `relativize` from `extension.ts`: shortest candidate, first wins ties. -/
def relativize (rel : String → String → String) (home rootPath : Option String)
    (path : String) : String :=
  reduceMin path ((home.map fun h => "~/" ++ rel h path).toList ++
    (rootPath.map fun rp => rel rp path).toList)

/-- A workspace folder as used by `shortPath` in the latest revision:
a display name and a filesystem root path. -/
structure WsFolder where
  name : String
  fsPath : String
deriving DecidableEq

/-- Candidate list built by `shortPath` (latest revision): the path
itself, then the `~/`-form when `HOME` is set, then
`join(folder.name, relative(folder.fsPath, path))` for each workspace
folder in order.  `rel` is the external `path.relative`, `joinP` the
external `path.join`. -/
def shortPathCands (rel joinP : String → String → String) (home : Option String)
    (folders : List WsFolder) (path : String) : List String :=
  path :: ((home.map fun h => "~/" ++ rel h path).toList ++
    folders.map fun f => joinP f.name (rel f.fsPath path))

/-- Function `shortPath` from the latest revision: shortest candidate, first wins ties. -/
def shortPath (rel joinP : String → String → String) (home : Option String)
    (folders : List WsFolder) (path : String) : String :=
  reduceMin path ((home.map fun h => "~/" ++ rel h path).toList ++
    folders.map fun f => joinP f.name (rel f.fsPath path))

/-- Function `sendLaunch` from `extension.ts`: the pair of the text given to
`terminal.sendText` and its `addNewLine` argument (always `false`).
`userConfig` is the module-level constant (absent when `HOME` is unset;
in JavaScript `string !== undefined` is true, which the `Option`
comparison mirrors). -/
def sendLaunch (rel : String → String → String) (home rootPath userConfig : Option String)
    (host : Host) : String × Bool :=
  (if userConfig ≠ some host.configFile then
      "ssh -F " ++ relativize rel home rootPath host.configFile ++ " " ++ host.label
    else
      "ssh " ++ host.label,
   false)

/-- Outcome of the `lstat` callback for a path. -/
inductive LstatResult where
  | ok
  | enoent
  | failed (err : String)
deriving DecidableEq

/-- Function `fileExists` from `extension.ts`: resolves `true` on success,
`false` on `ENOENT`, and rejects with the error otherwise. -/
def fileExists : LstatResult → Except String Bool
  | .ok => .ok true
  | .enoent => .ok false
  | .failed err => .error err

/-- Function `loadHosts` from `extension.ts` (the existence-checked variant):
check existence first; parse the document only when the file exists,
contribute `[]` when it does not, and let a non-`ENOENT` `lstat` error
reject the promise.  `lstatOf` and `readDoc` stand for the external
filesystem/editor calls; the host description is
`relativize(configFile)` as in the source. -/
def loadHostsChecked (rel : String → String → String) (home rootPath : Option String)
    (lstatOf : String → LstatResult) (readDoc : String → String)
    (configFile : String) : Except String (List Host) :=
  match fileExists (lstatOf configFile) with
  | .error err => .error err
  | .ok true => .ok (parseHosts (readDoc configFile) (relativize rel home rootPath configFile) configFile)
  | .ok false => .ok []

/-- Outcome of `workspace.openTextDocument` for a path: the document
text, or a rejection reason (`ENOENT`, permissions, I/O, ...). -/
inductive OpenResult where
  | ok (text : String)
  | failed (err : String)
deriving DecidableEq

/-- Function `loadHosts` from the earlier revisions (no existence pre-check):
`openTextDocument(...).then(parse, err => [])` — the rejection handler
returns `[]` for every error, so the resulting promise always resolves. -/
def loadHostsUnchecked (openDoc : String → OpenResult) (desc : String → String)
    (configFile : String) : Except String (List Host) :=
  match openDoc configFile with
  | .ok text => .ok (parseHosts text (desc configFile) configFile)
  | .failed _ => .ok []

/-- An entry of the bundled `options.json` table. -/
structure OptionEntry where
  label : String
  documentation : String
deriving DecidableEq

/-- How a load of the options table settles: the parsed entries, or the
`readFile` error the promise was rejected with. -/
inductive LoadOutcome where
  | resolved (entries : List OptionEntry)
  | rejected (err : String)
deriving DecidableEq

/-- A promise object for the options table: an identity (allocation
number) plus the outcome it will settle with.  Distinct loads would be
distinct objects even when their outcomes agree. -/
structure OptPromise where
  id : Nat
  outcome : LoadOutcome
deriving DecidableEq

/-- The module-level mutable state behind `getOptions`: the `options`
variable (unassigned until the first call) plus a count of promises
created, to observe how often the `readFile` load is started. -/
structure OptCache where
  cached : Option OptPromise
  creations : Nat
deriving DecidableEq

/-- One call of `getOptions`: `options || (options = new Promise(...))`.
`fresh` is the promise a new load would create at this point.  A settled
promise object — rejected or resolved — is truthy in JavaScript, so a
cached promise is returned as is. -/
def getOptions (fresh : OptPromise) (s : OptCache) : OptPromise × OptCache :=
  match s.cached with
  | some p => (p, s)
  | none => (fresh, { cached := some fresh, creations := s.creations + 1 })

/-- A sequence of `getOptions` calls; the n-th element of `freshes` is
the promise that the n-th call would create if it started a load. -/
def runGetOptions (freshes : List OptPromise) (s : OptCache) :
    List OptPromise × OptCache :=
  match freshes with
  | [] => ([], s)
  | f :: fs =>
    let (r, s1) := getOptions f s
    let (rs, s2) := runGetOptions fs s1
    (r :: rs, s2)

/-- A completion item as assembled by the provider. -/
structure CompletionItem where
  label : String
  documentation : Option String
  insertText : Option String
deriving DecidableEq

/-- The single snippet item defined at module level in `extension.ts`. -/
def snippets : List CompletionItem :=
  [{ label := "Configure tunnel",
     documentation := some "Insert a template for configuring a tunnel connection.",
     insertText := some "Host $\x7b1:alias\x7d\n    HostName $\x7b2:fqn\x7d\n    LocalForward $\x7b4:port\x7d $\x7b5:localhost\x7d:$\x7b4:port\x7d\n    User $\x7b6:user\x7d" }]

/-- The item built for one option entry inside `provideCompletionItems`. -/
def mkOptionItem (o : OptionEntry) : CompletionItem :=
  { label := o.label, documentation := some o.documentation, insertText := none }

/-- The test `/^\s*[^\s]*$/.test(prefixText)`: greedy `\s*` then `[^\s]*`
to the end of the string, i.e. after stripping leading whitespace no
whitespace remains. -/
def keywordStartOk (pre : List Char) : Bool :=
  (pre.dropWhile isJsSpace).all fun c => !isJsSpace c

/-- Function `provideCompletionItems` from `extension.ts`: the text before the
cursor on the current line (`substr(0, position.character)`) must pass
the regex test; then the static option list is mapped to items and the
snippet appended.  `opts` is the table the cached promise resolved
with; an ineligible position returns `undefined` (here `none`). -/
def provideCompletionItems (opts : List OptionEntry) (lineText : String)
    (character : Nat) : Option (List CompletionItem) :=
  if keywordStartOk (lineText.take character).data then
    some (opts.map mkOptionItem ++ snippets)
  else
    none

/-- The two signals that can invoke the one-shot `send` closure in
`launch`: a `terminal.onData` callback firing, or the 3-second fallback
timer. -/
inductive RaceEvent where
  | onData
  | timeout
deriving DecidableEq

/-- The state of the launch step's send race: the `sent` flag plus a
count of how many times `sendLaunch` has actually run. -/
structure RaceState where
  sent : Bool
  sendCount : Nat
deriving DecidableEq

/-- The `send` closure: `if (!sent) { sent = true; sendLaunch(...) }`. -/
def sendOnce (s : RaceState) : RaceState :=
  if s.sent then s else { sent := true, sendCount := s.sendCount + 1 }

/-- Both registered signals invoke the same guarded closure
(`terminal.onData(send); setTimeout(send, 3000)`). -/
def raceStep (s : RaceState) : RaceEvent → RaceState
  | .onData => sendOnce s
  | .timeout => sendOnce s

/-- Run an arbitrary interleaving of signal firings from the initial
state (`sent = false`, nothing sent yet). -/
def runRace (events : List RaceEvent) : RaceState :=
  events.foldl raceStep { sent := false, sendCount := 0 }

/-- Collation key of a string under the modelled default locale:
case-folded characters first (primary strength), the raw characters as
tie-break, compared lexicographically. -/
def localeKey (s : String) : Lex (List Char × List Char) :=
  toLex (s.data.map Char.toLower, s.data)

/-- Modelled from the spec: `String.prototype.localeCompare` under the
default locale — locale-aware lexicographic comparison, modelled as the
order of the collation keys (so `"Alpha"` sorts before `"zeta"`, by
base letters, unlike a raw code-point comparison in general). -/
def localeLe (a b : String) : Prop :=
  localeKey a ≤ localeKey b

instance : DecidableRel localeLe := fun a b =>
  inferInstanceAs (Decidable (localeKey a ≤ localeKey b))

/-- The comparator `(a, b) => a.label.localeCompare(b.label)` passed to
`hosts.sort` in `launch`: hosts ordered by locale comparison of labels. -/
def hostLe (a b : Host) : Prop :=
  localeLe a.label b.label

instance : DecidableRel hostLe := fun a b =>
  inferInstanceAs (Decidable (localeLe a.label b.label))

instance : IsTotal Host hostLe :=
  ⟨fun a b => le_total (localeKey a.label) (localeKey b.label)⟩

instance : IsTrans Host hostLe :=
  ⟨fun _ _ _ hab hbc => le_trans hab hbc⟩

/-- The aggregation step of `launch`:
`hostsArray.reduce((all, hosts) => all.concat(hosts), [])` followed by
`hosts.sort(comparator)` (a stable sort ascending by the comparator,
modelled by insertion sort). -/
def launchSort (hostsArray : List (List Host)) : List Host :=
  List.insertionSort hostLe (hostsArray.foldl (· ++ ·) [])

/-- Concrete host from the user config file, for the sorting example. -/
def hostAlpha : Host :=
  { label := "Alpha", description := "~/.ssh/config", configFile := "/home/u/.ssh/config" }

/-- Concrete host from a workspace config file, for the sorting example. -/
def hostZeta : Host :=
  { label := "zeta", description := "proj/.vscode/ssh.config", configFile := "/ws/proj/.vscode/ssh.config" }

end VscodeSsh

namespace VscodeSsh


/-- The seedless `reduce` used by both path shorteners returns a member
of the candidate list that has minimal length, and it is the first
candidate of that minimal length (ties keep the accumulator, i.e. the
earlier candidate). -/
theorem reduceMin_spec (rest : List String) : ∀ first : String,
    reduceMin first rest ∈ first :: rest ∧
    (∀ c ∈ first :: rest, (reduceMin first rest).length ≤ c.length) ∧
    (first :: rest).find? (fun c => decide (c.length ≤ (reduceMin first rest).length)) =
      some (reduceMin first rest) := by
  induction rest with
  | nil =>
    intro first
    refine ⟨List.mem_cons_self first [], ?_, ?_⟩
    · intro c hc
      rcases List.mem_cons.mp hc with rfl | hc
      · exact le_refl _
      · cases hc
    · have : (fun c => decide (c.length ≤ (reduceMin first []).length)) first = true := by
        simp [reduceMin]
      simp [List.find?, this, reduceMin]
  | cons p rest ih =>
    intro first
    have hfold : reduceMin first (p :: rest) =
        reduceMin (if first.length ≤ p.length then first else p) rest := rfl
    by_cases h : first.length ≤ p.length
    · simp only [hfold, if_pos h]
      obtain ⟨hm, hmin, hf⟩ := ih first
      refine ⟨?_, ?_, ?_⟩
      · rcases List.mem_cons.mp hm with he | hm'
        · rw [he]
          exact List.mem_cons_self _ _
        · exact List.mem_cons_of_mem _ (List.mem_cons_of_mem _ hm')
      · intro c hc
        rcases List.mem_cons.mp hc with rfl | hc'
        · exact hmin _ (List.mem_cons_self _ _)
        · rcases List.mem_cons.mp hc' with rfl | hc''
          · exact le_trans (hmin _ (List.mem_cons_self _ _)) h
          · exact hmin _ (List.mem_cons_of_mem _ hc'')
      · by_cases hq : first.length ≤ (reduceMin first rest).length
        · have hqb : decide (first.length ≤ (reduceMin first rest).length) = true := by
            simpa using hq
          have h1 : List.find? (fun c => decide (c.length ≤ (reduceMin first rest).length))
              (first :: rest) = some first := List.find?_cons_of_pos _ hqb
          have hfr : first = reduceMin first rest := Option.some.inj (h1.symm.trans hf)
          have h2 : List.find? (fun c => decide (c.length ≤ (reduceMin first rest).length))
              (first :: p :: rest) = some first := List.find?_cons_of_pos _ hqb
          exact h2.trans (congrArg some hfr)
        · have hqb : ¬ decide (first.length ≤ (reduceMin first rest).length) = true := by
            simpa using hq
          have hlt : (reduceMin first rest).length < first.length := lt_of_not_le hq
          have hqp : ¬ decide (p.length ≤ (reduceMin first rest).length) = true := by
            simp only [decide_eq_true_eq]
            intro hple
            exact absurd (le_trans h hple) (not_le_of_lt hlt)
          have h2 : List.find? (fun c => decide (c.length ≤ (reduceMin first rest).length))
              (first :: p :: rest) =
              List.find? (fun c => decide (c.length ≤ (reduceMin first rest).length)) (p :: rest) :=
            List.find?_cons_of_neg _ hqb
          have h3 : List.find? (fun c => decide (c.length ≤ (reduceMin first rest).length))
              (p :: rest) =
              List.find? (fun c => decide (c.length ≤ (reduceMin first rest).length)) rest :=
            List.find?_cons_of_neg _ hqp
          have h4 : List.find? (fun c => decide (c.length ≤ (reduceMin first rest).length))
              (first :: rest) =
              List.find? (fun c => decide (c.length ≤ (reduceMin first rest).length)) rest :=
            List.find?_cons_of_neg _ hqb
          exact h2.trans (h3.trans (h4.symm.trans hf))
    · simp only [hfold, if_neg h]
      have hpf : p.length ≤ first.length := le_of_lt (lt_of_not_le h)
      obtain ⟨hm, hmin, hf⟩ := ih p
      refine ⟨?_, ?_, ?_⟩
      · exact List.mem_cons_of_mem _ hm
      · intro c hc
        rcases List.mem_cons.mp hc with rfl | hc'
        · exact le_trans (hmin _ (List.mem_cons_self _ _)) hpf
        · exact hmin _ hc'
      · have hqf : ¬ decide (first.length ≤ (reduceMin p rest).length) = true := by
          simp only [decide_eq_true_eq]
          intro hfle
          have hrp : (reduceMin p rest).length ≤ p.length := hmin _ (List.mem_cons_self _ _)
          exact absurd (le_trans hfle hrp) h
        have h2 : List.find? (fun c => decide (c.length ≤ (reduceMin p rest).length))
            (first :: p :: rest) =
            List.find? (fun c => decide (c.length ≤ (reduceMin p rest).length)) (p :: rest) :=
          List.find?_cons_of_neg _ hqf
        exact h2.trans hf

/-- Claim C3: the path shortener considers exactly the candidates
{the path unmodified; `~/` + home-relative path when home is known;
folder name joined with the folder-relative path, for each workspace
folder} in that fixed order, and returns the candidate with the fewest
characters, the first-considered candidate winning on equal length
(hence a deterministic result). -/
theorem c3_short_path_selection (rel joinP : String → String → String)
    (home : Option String) (folders : List WsFolder) (path : String) :
    shortPathCands rel joinP home folders path =
      path :: ((home.map fun h => "~/" ++ rel h path).toList ++
        folders.map fun f => joinP f.name (rel f.fsPath path)) ∧
    shortPath rel joinP home folders path ∈ shortPathCands rel joinP home folders path ∧
    (∀ c ∈ shortPathCands rel joinP home folders path,
      (shortPath rel joinP home folders path).length ≤ c.length) ∧
    (shortPathCands rel joinP home folders path).find?
        (fun c => decide (c.length ≤ (shortPath rel joinP home folders path).length)) =
      some (shortPath rel joinP home folders path) := by
  obtain ⟨hm, hmin, hf⟩ := reduceMin_spec
    ((home.map fun h => "~/" ++ rel h path).toList ++
      folders.map fun f => joinP f.name (rel f.fsPath path)) path
  exact ⟨rfl, hm, hmin, hf⟩

/-- Witness for C3 at concrete externals and inputs. -/
theorem c3_short_path_selection_witness :
    shortPath (fun _ p => p.drop 8) (fun n r => n ++ "/" ++ r) (some "/home/u")
        [⟨"proj", "/ws/proj"⟩] "/home/u/.ssh/config" ∈
      shortPathCands (fun _ p => p.drop 8) (fun n r => n ++ "/" ++ r) (some "/home/u")
        [⟨"proj", "/ws/proj"⟩] "/home/u/.ssh/config" :=
  (c3_short_path_selection (fun _ p => p.drop 8) (fun n r => n ++ "/" ++ r) (some "/home/u")
    [⟨"proj", "/ws/proj"⟩] "/home/u/.ssh/config").2.1

/-- Claim C1: for every selected host, `sendLaunch` passes to
`terminal.sendText` exactly `ssh <alias>` when the host's config file is
the user config, and `ssh -F <relativized config path> <alias>`
otherwise, with the `addNewLine` flag always `false` (the text is not
auto-executed). -/
theorem c1_send_launch_text (rel : String → String → String)
    (home rootPath userConfig : Option String) (host : Host) :
    sendLaunch rel home rootPath userConfig host =
      (if userConfig = some host.configFile then
          "ssh " ++ host.label
        else
          "ssh -F " ++ relativize rel home rootPath host.configFile ++ " " ++ host.label,
       false) := by
  by_cases h : userConfig = some host.configFile <;> simp [sendLaunch, h]

/-- Claim C4: in the existence-checked variant, a config path whose
`lstat` fails with `ENOENT` contributes the empty host list and no
error. -/
theorem c4_missing_file_empty (rel : String → String → String)
    (home rootPath : Option String) (lstatOf : String → LstatResult)
    (readDoc : String → String) (configFile : String)
    (h : lstatOf configFile = LstatResult.enoent) :
    loadHostsChecked rel home rootPath lstatOf readDoc configFile = Except.ok [] := by
  simp [loadHostsChecked, h, fileExists]

/-- Witness for C4. -/
theorem c4_missing_file_empty_witness :
    loadHostsChecked (fun _ p => p) (some "/home/u") none (fun _ => LstatResult.enoent)
      (fun _ => "Host a") "/home/u/.ssh/config" = Except.ok [] :=
  c4_missing_file_empty (fun _ p => p) (some "/home/u") none (fun _ => LstatResult.enoent)
    (fun _ => "Host a") "/home/u/.ssh/config" rfl

/-- Counterexample to claim C5 as stated: in the variant without an
existence pre-check, a file whose open fails for a reason other than
non-existence (here `EACCES`) still yields the empty host list — the
rejection handler swallows every error, so nothing is surfaced to the
caller. -/
theorem c5_unchecked_error_counterexample :
    loadHostsUnchecked (fun _ => OpenResult.failed "EACCES") (fun p => p)
      "/home/u/.ssh/config" = Except.ok [] := rfl

/-- Claim C5 as amended: in the variant without an existence pre-check,
every open failure — non-existence or otherwise — yields the empty host
list and no error ever propagates; a non-`ENOENT` failure is surfaced
only in the existence-checked variant, where the `lstat` promise
rejects. -/
theorem c5_error_swallowed :
    (∀ (openDoc : String → OpenResult) (desc : String → String) (configFile err : String),
      openDoc configFile = OpenResult.failed err →
        loadHostsUnchecked openDoc desc configFile = Except.ok []) ∧
    (∀ (rel : String → String → String) (home rootPath : Option String)
        (lstatOf : String → LstatResult) (readDoc : String → String) (configFile err : String),
      lstatOf configFile = LstatResult.failed err →
        loadHostsChecked rel home rootPath lstatOf readDoc configFile = Except.error err) := by
  constructor
  · intro openDoc desc configFile err h
    simp [loadHostsUnchecked, h]
  · intro rel home rootPath lstatOf readDoc configFile err h
    simp [loadHostsChecked, h, fileExists]

/-- Witness for the amended C5. -/
theorem c5_error_swallowed_witness :
    loadHostsUnchecked (fun _ => OpenResult.failed "EIO") (fun p => p) "/f" = Except.ok [] ∧
    loadHostsChecked (fun _ p => p) none none (fun _ => LstatResult.failed "EIO")
      (fun _ => "") "/f" = Except.error "EIO" :=
  ⟨c5_error_swallowed.1 (fun _ => OpenResult.failed "EIO") (fun p => p) "/f" "EIO" rfl,
   c5_error_swallowed.2 (fun _ p => p) none none (fun _ => LstatResult.failed "EIO")
     (fun _ => "") "/f" "EIO" rfl⟩

/-- After the guarded send has run, further signal firings change
nothing. -/
theorem runRace_stable (events : List RaceEvent) : ∀ n : Nat,
    events.foldl raceStep { sent := true, sendCount := n } = { sent := true, sendCount := n } := by
  induction events with
  | nil => intro n; rfl
  | cons e es ih =>
    intro n
    have hstep : raceStep { sent := true, sendCount := n } e = { sent := true, sendCount := n } := by
      cases e <;> simp [raceStep, sendOnce]
    calc (e :: es).foldl raceStep { sent := true, sendCount := n }
        = es.foldl raceStep (raceStep { sent := true, sendCount := n } e) := rfl
      _ = { sent := true, sendCount := n } := by rw [hstep]; exact ih n

/-- Claim C6: for every interleaving of the terminal readiness callback
and the timeout — either signal, both, in any order, any number of
callback firings — the guarded send action runs exactly once as soon as
at least one signal fires. -/
theorem c6_send_exactly_once (events : List RaceEvent) (h : events ≠ []) :
    (runRace events).sendCount = 1 ∧ (runRace events).sent = true := by
  cases events with
  | nil => exact absurd rfl h
  | cons e es =>
    have hstep : raceStep { sent := false, sendCount := 0 } e = { sent := true, sendCount := 1 } := by
      cases e <;> simp [raceStep, sendOnce]
    have : runRace (e :: es) = { sent := true, sendCount := 1 } := by
      show es.foldl raceStep (raceStep { sent := false, sendCount := 0 } e) = _
      rw [hstep]
      exact runRace_stable es 1
    rw [this]
    exact ⟨rfl, rfl⟩

/-- Witness for C6: callback fires, then the timeout, then the callback
again; the send still runs exactly once. -/
theorem c6_send_exactly_once_witness :
    (runRace [RaceEvent.onData, RaceEvent.timeout, RaceEvent.onData]).sendCount = 1 ∧
    (runRace [RaceEvent.onData, RaceEvent.timeout, RaceEvent.onData]).sent = true :=
  c6_send_exactly_once [RaceEvent.onData, RaceEvent.timeout, RaceEvent.onData] (by decide)

/-- Once the cache holds a promise, every later `getOptions` call
returns that promise unchanged and no further load is created. -/
theorem runGetOptions_cached (freshes : List OptPromise) : ∀ (p : OptPromise) (n : Nat),
    runGetOptions freshes { cached := some p, creations := n } =
      (List.replicate freshes.length p, { cached := some p, creations := n }) := by
  induction freshes with
  | nil => intro p n; rfl
  | cons f fs ih =>
    intro p n
    simp [runGetOptions, getOptions, ih p n, List.replicate]

/-- Claim C7: the options table is loaded at most once per process —
the first `getOptions` call creates the load promise, every call in the
sequence (including ones issued while the load is in flight) returns
that same promise, and the cached value is never replaced. -/
theorem c7_options_single_flight (f : OptPromise) (fs : List OptPromise) :
    runGetOptions (f :: fs) { cached := none, creations := 0 } =
      (List.replicate (fs.length + 1) f, { cached := some f, creations := 1 }) := by
  simp [runGetOptions, getOptions, runGetOptions_cached fs f 1, List.replicate]

/-- Claim C10: if the first load rejects, the rejected promise itself
stays cached — every later call returns the same rejected promise and
no new read is attempted (`creations` stays 1), even when later loads
(`fs`) would succeed because the file became readable. -/
theorem c10_rejection_cached (err : String) (fs : List OptPromise) :
    runGetOptions ({ id := 0, outcome := LoadOutcome.rejected err } :: fs)
        { cached := none, creations := 0 } =
      (List.replicate (fs.length + 1) { id := 0, outcome := LoadOutcome.rejected err },
       { cached := some { id := 0, outcome := LoadOutcome.rejected err }, creations := 1 }) := by
  simp [runGetOptions, getOptions,
    runGetOptions_cached fs { id := 0, outcome := LoadOutcome.rejected err } 1, List.replicate]

/-- Claim C9: before display, `launch` concatenates the host lists of
all config sources and sorts the combined list by label under the
(modelled) locale-aware comparison; the result is a permutation of the
concatenation, it is sorted, and in particular `"Alpha"` (from the user
config) is ordered before `"zeta"` (from a workspace config). -/
theorem c9_hosts_sorted (hostsArray : List (List Host)) :
    List.Perm (launchSort hostsArray) (hostsArray.foldl (· ++ ·) []) ∧
    List.Sorted hostLe (launchSort hostsArray) ∧
    launchSort [[hostZeta], [hostAlpha]] = [hostAlpha, hostZeta] :=
  ⟨List.perm_insertionSort hostLe _, List.sorted_insertionSort hostLe _, by decide⟩

/-- Dropping a satisfying prefix: `dropWhile` skips a block of elements
that all satisfy the predicate. -/
theorem dropWhile_append_all {α : Type} (p : α → Bool) {a : List α} (b : List α)
    (ha : ∀ c ∈ a, p c = true) : (a ++ b).dropWhile p = b.dropWhile p := by
  induction a with
  | nil => rfl
  | cons x xs ih =>
    have hx : p x = true := ha x (List.mem_cons_self _ _)
    simp only [List.cons_append, List.dropWhile_cons, hx, if_true]
    exact ih fun c hc => ha c (List.mem_cons_of_mem _ hc)

/-- Lemma: `dropWhile` leaves a list alone when no element satisfies the
predicate — in particular when its head does not. -/
theorem dropWhile_all_not {α : Type} (p : α → Bool) (b : List α)
    (hb : ∀ c ∈ b, p c = false) : b.dropWhile p = b := by
  cases b with
  | nil => rfl
  | cons d t =>
    have hd : p d = false := hb d (List.mem_cons_self _ _)
    simp [List.dropWhile_cons, hd]

/-- The regex test `/^\s*[^\s]*$/` holds exactly when the string splits
into a (possibly empty) whitespace run followed by a (possibly empty)
run of non-whitespace characters. -/
theorem keywordStartOk_iff (pre : List Char) :
    keywordStartOk pre = true ↔
      ∃ a b, pre = a ++ b ∧ (∀ c ∈ a, isJsSpace c = true) ∧ (∀ c ∈ b, isJsSpace c = false) := by
  constructor
  · intro h
    refine ⟨pre.takeWhile isJsSpace, pre.dropWhile isJsSpace,
      (List.takeWhile_append_dropWhile _ _).symm,
      fun c hc => List.mem_takeWhile_imp hc, ?_⟩
    intro c hc
    have := List.all_eq_true.mp h c hc
    simpa using this
  · rintro ⟨a, b, rfl, ha, hb⟩
    unfold keywordStartOk
    rw [dropWhile_append_all _ b ha, dropWhile_all_not _ b hb]
    exact List.all_eq_true.mpr fun c hc => by simpa using hb c hc

/-- Claim C8: the completion provider returns items exactly when the
text before the cursor on the current line is blank or a single partial
token (optional leading whitespace followed by a run of non-whitespace);
when it returns items, they are the full static option list — each
carrying the entry's label and documentation — plus the one fixed
snippet item, and otherwise it returns nothing. -/
theorem c8_completion_gate (opts : List OptionEntry) (lineText : String) (character : Nat) :
    ((provideCompletionItems opts lineText character).isSome = true ↔
      ∃ a b, (lineText.take character).data = a ++ b ∧
        (∀ c ∈ a, isJsSpace c = true) ∧ (∀ c ∈ b, isJsSpace c = false)) ∧
    (provideCompletionItems opts lineText character = none ∨
      provideCompletionItems opts lineText character =
        some (opts.map mkOptionItem ++ snippets)) := by
  constructor
  · rw [← keywordStartOk_iff]
    unfold provideCompletionItems
    by_cases h : keywordStartOk (lineText.take character).data <;> simp [h]
  · unfold provideCompletionItems
    by_cases h : keywordStartOk (lineText.take character).data <;> simp [h]

/-- Witness for C8: with the cursor after `"  Us"`, a partial token,
items are offered. -/
theorem c8_completion_gate_witness :
    (provideCompletionItems [⟨"User", "The user to log in as."⟩] "  Us" 4).isSome = true :=
  (c8_completion_gate [⟨"User", "The user to log in as."⟩] "  Us" 4).1.mpr
    ⟨[' ', ' '], ['U', 's'], by decide, by decide, by decide⟩

/-- Taking across a block of satisfying elements: `takeWhile` keeps the
whole block and continues. -/
theorem takeWhile_append_all {α : Type} (p : α → Bool) {a : List α} (b : List α)
    (ha : ∀ c ∈ a, p c = true) : (a ++ b).takeWhile p = a ++ b.takeWhile p := by
  induction a with
  | nil => rfl
  | cons x xs ih =>
    have hx : p x = true := ha x (List.mem_cons_self _ _)
    simp only [List.cons_append, List.takeWhile_cons, hx, if_true]
    rw [ih fun c hc => ha c (List.mem_cons_of_mem _ hc)]

/-- The suffix left by `dropWhile` is empty or starts with an element
that falsifies the predicate. -/
theorem dropWhile_shape {α : Type} (p : α → Bool) (l : List α) :
    l.dropWhile p = [] ∨ ∃ d t, l.dropWhile p = d :: t ∧ p d = false := by
  induction l with
  | nil => exact Or.inl rfl
  | cons x xs ih =>
    by_cases hx : p x = true
    · rw [List.dropWhile_cons, if_pos hx]
      exact ih
    · right
      refine ⟨x, xs, ?_, by simpa using hx⟩
      rw [List.dropWhile_cons, if_neg hx]

/-- Lemma: `takeWhile` takes nothing from a list that is empty or starts with
a falsifying element. -/
theorem takeWhile_eq_nil_of_head {α : Type} (p : α → Bool) (l : List α)
    (h : l = [] ∨ ∃ d t, l = d :: t ∧ p d = false) : l.takeWhile p = [] := by
  rcases h with rfl | ⟨d, t, rfl, hd⟩
  · rfl
  · rw [List.takeWhile_cons, if_neg (by simp [hd])]

/-- Lemma: `dropWhile` drops nothing from a list that is empty or starts with
a falsifying element. -/
theorem dropWhile_eq_self_of_head {α : Type} (p : α → Bool) (l : List α)
    (h : l = [] ∨ ∃ d t, l = d :: t ∧ p d = false) : l.dropWhile p = l := by
  rcases h with rfl | ⟨d, t, rfl, hd⟩
  · rfl
  · rw [List.dropWhile_cons, if_neg (by simp [hd])]

/-- One regex attempt succeeds exactly on the `Host` keyword, a
nonempty whitespace run (possibly crossing line terminators), and a
nonempty maximal run of non-whitespace characters — the captured token
— with the engine resuming right after the token. -/
theorem tryMatchAt_eq_some_iff (l : List Char) (tok : String) (rest : List Char) :
    tryMatchAt l = some (tok, rest) ↔
      ∃ sp, l = 'H' :: 'o' :: 's' :: 't' :: (sp ++ tok.data ++ rest) ∧
        sp ≠ [] ∧ (∀ c ∈ sp, isJsSpace c = true) ∧
        tok.data ≠ [] ∧ (∀ c ∈ tok.data, isJsSpace c = false) ∧
        (rest = [] ∨ ∃ d t, rest = d :: t ∧ isJsSpace d = true) := by
  constructor
  · intro h
    unfold tryMatchAt at h
    split at h
    case _ c1 c2 c3 c4 c cs =>
      by_cases hcond : c1 = 'H' ∧ c2 = 'o' ∧ c3 = 's' ∧ c4 = 't' ∧ isJsSpace c = true
      · obtain ⟨rfl, rfl, rfl, rfl, hc⟩ := hcond
        rw [if_pos ⟨rfl, rfl, rfl, rfl, hc⟩] at h
        by_cases he : ((cs.dropWhile isJsSpace).takeWhile fun d => !isJsSpace d).isEmpty = true
        · rw [if_pos he] at h
          exact Option.noConfusion h
        · rw [if_neg he] at h
          have hp := Option.some.inj h
          have h1 : (⟨(cs.dropWhile isJsSpace).takeWhile fun d => !isJsSpace d⟩ : String) = tok :=
            congrArg Prod.fst hp
          have h2 : (cs.dropWhile isJsSpace).dropWhile (fun d => !isJsSpace d) = rest :=
            congrArg Prod.snd hp
          have htokd : tok.data = (cs.dropWhile isJsSpace).takeWhile fun d => !isJsSpace d := by
            rw [← h1]
          refine ⟨c :: cs.takeWhile isJsSpace, ?_, by simp, ?_, ?_, ?_, ?_⟩
          · rw [htokd, ← h2]
            simp only [List.cons_append, List.append_assoc]
            rw [List.takeWhile_append_dropWhile, List.takeWhile_append_dropWhile]
          · intro x hx
            rcases List.mem_cons.mp hx with rfl | hx'
            · exact hc
            · exact List.mem_takeWhile_imp hx'
          · rw [htokd]
            intro hnil
            exact he (by simp [hnil])
          · intro x hx
            rw [htokd] at hx
            have := List.mem_takeWhile_imp hx
            simpa using this
          · rw [← h2]
            rcases dropWhile_shape (fun d => !isJsSpace d) (cs.dropWhile isJsSpace) with hsh | ⟨d, t, hsh, hd⟩
            · exact Or.inl hsh
            · exact Or.inr ⟨d, t, hsh, by simpa using hd⟩
      · rw [if_neg hcond] at h
        exact Option.noConfusion h
    case _ =>
      exact Option.noConfusion h
  · rintro ⟨sp, hl, hsp, hspws, htokd, htokws, hrest⟩
    cases sp with
    | nil => exact absurd rfl hsp
    | cons c sp' =>
      obtain ⟨tokData⟩ := tok
      subst hl
      have hc : isJsSpace c = true := hspws c (List.mem_cons_self _ _)
      have hsp' : ∀ x ∈ sp', isJsSpace x = true :=
        fun x hx => hspws x (List.mem_cons_of_mem _ hx)
      have htokrest : tokData ++ rest = [] ∨
          ∃ d t, tokData ++ rest = d :: t ∧ isJsSpace d = false := by
        cases htd : tokData with
        | nil => exact absurd htd htokd
        | cons t0 tt =>
          refine Or.inr ⟨t0, tt ++ rest, by simp, ?_⟩
          exact htokws t0 (by rw [htd]; exact List.mem_cons_self _ _)
      have hdropws : (sp' ++ tokData ++ rest).dropWhile isJsSpace = tokData ++ rest := by
        rw [List.append_assoc, dropWhile_append_all isJsSpace (tokData ++ rest) hsp']
        exact dropWhile_eq_self_of_head _ _ htokrest
      have htoknot : ∀ x ∈ tokData, (fun d => !isJsSpace d) x = true := by
        intro x hx
        simp [htokws x hx]
      have htake : (tokData ++ rest).takeWhile (fun d => !isJsSpace d) = tokData := by
        rw [takeWhile_append_all _ rest htoknot]
        rw [takeWhile_eq_nil_of_head (fun d => !isJsSpace d) rest ?hh, List.append_nil]
        case hh =>
          rcases hrest with rfl | ⟨d, t, rfl, hd⟩
          · exact Or.inl rfl
          · exact Or.inr ⟨d, t, rfl, by simp [hd]⟩
      have hdrop : (tokData ++ rest).dropWhile (fun d => !isJsSpace d) = rest := by
        rw [dropWhile_append_all _ rest htoknot]
        apply dropWhile_eq_self_of_head
        rcases hrest with rfl | ⟨d, t, rfl, hd⟩
        · exact Or.inl rfl
        · exact Or.inr ⟨d, t, rfl, by simp [hd]⟩
      have hne : ¬ (tokData.isEmpty = true) := by
        intro hh
        exact htokd (List.isEmpty_iff.mp hh)
      show (if ('H' : Char) = 'H' ∧ ('o' : Char) = 'o' ∧ ('s' : Char) = 's' ∧ ('t' : Char) = 't' ∧
              isJsSpace c = true then
          if (((sp' ++ tokData ++ rest).dropWhile isJsSpace).takeWhile fun d => !isJsSpace d).isEmpty then
            none
          else
            some (String.mk (((sp' ++ tokData ++ rest).dropWhile isJsSpace).takeWhile fun d => !isJsSpace d),
              ((sp' ++ tokData ++ rest).dropWhile isJsSpace).dropWhile fun d => !isJsSpace d)
        else none) = some (String.mk tokData, rest)
      rw [if_pos ⟨rfl, rfl, rfl, rfl, hc⟩, hdropws, htake, hdrop, if_neg hne]

/-- Every label the scan loop captures is a nonempty run of
non-whitespace characters (the first whitespace-delimited token at its
match site). -/
theorem scanHostsGo_tokens (fuel : Nat) : ∀ (l : List Char) (anchor : Bool) (tok : String),
    tok ∈ scanHostsGo fuel l anchor →
      tok.data ≠ [] ∧ ∀ c ∈ tok.data, isJsSpace c = false := by
  induction fuel with
  | zero =>
    intro l anchor tok h
    simp [scanHostsGo] at h
  | succ fuel ih =>
    intro l anchor tok h
    cases l with
    | nil => simp [scanHostsGo] at h
    | cons c cs =>
      cases anchor with
      | false =>
        exact ih cs (isLineTerm c) tok (by simpa [scanHostsGo] using h)
      | true =>
        rcases htm : tryMatchAt (c :: cs) with _ | ⟨tk, rest⟩
        · rw [scanHostsGo, if_pos rfl, htm] at h
          exact ih cs (isLineTerm c) tok h
        · rw [scanHostsGo, if_pos rfl, htm] at h
          rcases List.mem_cons.mp h with rfl | h'
          · obtain ⟨sp, _, _, _, htokd, htokws, _⟩ := (tryMatchAt_eq_some_iff _ tok rest).mp htm
            exact ⟨htokd, htokws⟩
          · exact ih rest false tok h'

/-- Counterexample to claim C2 as stated: on the text `"Host\nx"` no
line matches `Host` followed by whitespace and a token on that same
line (the per-line reading yields `[]`), yet the code's regex scan
yields `["x"]` — the greedy `\s+` of `/^Host\s+([^\s]+)/gm` crosses the
line terminator and captures the next line's token. -/
theorem c2_per_line_counterexample :
    scanHosts "Host\nx" = ["x"] ∧ specLineHosts "Host\nx" = [] := by
  exact ⟨by decide, by decide⟩

/-- Claim C2 as amended: the parser returns one entry per match of the
anchored pattern — `Host` at a line start, followed by a nonempty
whitespace run (which may span line terminators) and a nonempty maximal
token of non-whitespace characters — capturing exactly that token, in
order of appearance; every returned label is such a token, and on the
example text with lines `Host a`, `Host b c`, `Host   d` (where keyword
and token always share a line) the result is exactly
`["a", "b", "d"]`, agreeing with the strictly per-line reading. -/
theorem c2_scan_matches :
    (∀ (l : List Char) (tok : String) (rest : List Char),
      tryMatchAt l = some (tok, rest) ↔
        ∃ sp, l = 'H' :: 'o' :: 's' :: 't' :: (sp ++ tok.data ++ rest) ∧
          sp ≠ [] ∧ (∀ c ∈ sp, isJsSpace c = true) ∧
          tok.data ≠ [] ∧ (∀ c ∈ tok.data, isJsSpace c = false) ∧
          (rest = [] ∨ ∃ d t, rest = d :: t ∧ isJsSpace d = true)) ∧
    (∀ (text : String) (tok : String), tok ∈ scanHosts text →
      tok.data ≠ [] ∧ ∀ c ∈ tok.data, isJsSpace c = false) ∧
    scanHosts "Host a\nHost b c\nHost   d" = ["a", "b", "d"] ∧
    specLineHosts "Host a\nHost b c\nHost   d" = ["a", "b", "d"] :=
  ⟨tryMatchAt_eq_some_iff,
   fun _ tok h => scanHostsGo_tokens _ _ _ tok h,
   by decide, by decide⟩

/-- Witness for the amended C2: one concrete anchored match, produced
through the characterization. -/
theorem c2_scan_matches_witness :
    tryMatchAt ('H' :: 'o' :: 's' :: 't' :: ' ' :: 'a' :: []) = some ("a", []) :=
  (c2_scan_matches.1 ('H' :: 'o' :: 's' :: 't' :: ' ' :: 'a' :: []) "a" []).mpr
    ⟨[' '], by decide, by decide, by decide, by decide, by decide, Or.inl rfl⟩



end VscodeSsh
